import Mathlib

/-!
# Verification of the Memory Match game (memorymatchgame.c)

Shallow embedding of the single-file C program `src/memorymatchgame.c`:
a terminal Memory Match (concentration) game.  The board is a C array
`Card board[BOARD_ROWS][BOARD_COLS]`; we embed it as the flat row-major
list of its cells (cell `(r, c)` lives at index `r * C + c`, exactly the
memory layout of the 2D C array).  The process-wide random source
(`rand()`) is embedded as a function `g : Nat → Nat` giving the value
returned by `rand()` at each loop index where it is consumed, and the
player's textual input (`scanf("%d %d", ...)`) as an `Input` stream:
either two parsed integers or a malformed read.

The blocking interaction points of `main`'s while-loop (first `pick_card`
call, second `pick_card` call, and the "Press Enter to continue" wait of
the mismatch branch) become the phases of a small-step state machine
`mstep`; `run` iterates it with the loop's `pairs_found < total_pairs`
guard, fuel-bounded because the player may fail input forever.
-/

namespace MemoryMatch

/-- Embeds `struct Card { char symbol; bool revealed; bool matched; }`. -/
structure Card where
  symbol : Char
  revealed : Bool
  matched : Bool
deriving DecidableEq, Repr

/-- A default cell, used only as the out-of-range fallback of `getD`;
all accesses the program performs are in range. -/
def defCard : Card := { symbol := 'A', revealed := false, matched := false }

/-- The consecutive characters from `a` to `b` inclusive, embedding the C
loops `for (char c = a; c <= b; ++c) pool[pool_idx++] = c;`. -/
def charRange (a b : Char) : List Char :=
  (List.range (b.toNat + 1 - a.toNat)).map (fun k => Char.ofNat (a.toNat + k))

/-- The symbol pool built by `init_board`: uppercase letters, then
lowercase letters, then digits (62 symbols; the 128-byte buffer bound in
the C code is never reached). -/
def pool : List Char := charRange 'A' 'Z' ++ charRange 'a' 'z' ++ charRange '0' '9'

/-- Embeds the loop `for i < pair_count: symbols[idx++] = pool[i];
symbols[idx++] = pool[i];`: each symbol of the input, twice, in order. -/
def dupSymbols : List Char → List Char
  | [] => []
  | s :: t => s :: s :: dupSymbols t

/-- Embeds the C swap `tmp = s[i]; s[i] = s[j]; s[j] = tmp;` on a list.
Out-of-range indices never occur in the program; they leave the list
unchanged here. -/
def listSwap (l : List Char) (i j : Nat) : List Char :=
  match l.get? i, l.get? j with
  | some a, some b => (l.set i b).set j a
  | _, _ => l

/-- The body of `shuffle_symbols`, recursing on the loop counter `i`
(`for (int i = count - 1; i > 0; --i)`); `g i` is the value `rand()`
returns at loop index `i`, and `j = rand() % (i + 1)`. -/
def shuffleGo (g : Nat → Nat) : Nat → List Char → List Char
  | 0, l => l
  | i + 1, l => shuffleGo g i (listSwap l (i + 1) (g (i + 1) % (i + 2)))

/-- Embeds `shuffle_symbols(symbols, count)`: Fisher–Yates from
`i = count - 1` down to `i = 1`. -/
def shuffle_symbols (g : Nat → Nat) (count : Nat) (l : List Char) : List Char :=
  shuffleGo g (count - 1) l

/-- Embeds `init_board`.  `R`, `C` are the `BOARD_ROWS`, `BOARD_COLS`
macros (4 and 4 by default, changeable per the file header).  Returns
`none` when `pair_count > pool_idx`, where the C code prints the error
and calls `exit(1)` (non-zero exit, no board produced); otherwise the
flat row-major board: shuffled pair symbols, every cell with
`revealed = false`, `matched = false`. -/
def init_board (R C : Nat) (g : Nat → Nat) : Option (List Card) :=
  if R * C / 2 > pool.length then none
  else
    some ((shuffle_symbols g (R * C) (dupSymbols (pool.take (R * C / 2)))).map
      (fun s => { symbol := s, revealed := false, matched := false }))

/-- Read `board[r][c]` of the flat row-major board. -/
def getCell (C : Nat) (b : List Card) (r c : Nat) : Card :=
  b.getD (r * C + c) defCard

/-- Write `board[r][c]` of the flat row-major board. -/
def setCell (C : Nat) (b : List Card) (r c : Nat) (x : Card) : List Card :=
  b.set (r * C + c) x

/-- Embeds `board[r][c].revealed = v;`. -/
def setRev (C : Nat) (b : List Card) (r c : Nat) (v : Bool) : List Card :=
  setCell C b r c { getCell C b r c with revealed := v }

/-- Embeds `board[r][c].matched = true;`. -/
def setMat (C : Nat) (b : List Card) (r c : Nat) : List Card :=
  setCell C b r c { getCell C b r c with matched := true }

/-- One `scanf("%d %d", &r, &c)` read: either two integers (1-based, any
values), or a malformed read (`scanned != 2`, including EOF). -/
inductive Input where
  | malformed : Input
  | coords (r c : Int) : Input
deriving DecidableEq, Repr

/-- The reject reasons of `pick_card`, in the order the C code tests
them. -/
inductive PickError where
  | malformedInput : PickError
  | outOfRange : PickError
  | alreadyMatched : PickError
  | alreadyRevealed : PickError
deriving DecidableEq, Repr

/-- Result of one `pick_card` call: a validated 0-based coordinate, or a
rejection (the C function prints a message and returns false). -/
inductive PickResult where
  | ok (r c : Nat) : PickResult
  | fail (e : PickError) : PickResult
deriving DecidableEq, Repr

/-- The user-facing messages the turn logic emits, one constructor per
`printf` branch that the claims distinguish. -/
inductive Event where
  | pickFail (e : PickError) : Event
  | sameCardTwice : Event
  | matchFound : Event
  | noMatch : Event
deriving DecidableEq, Repr

/-- Embeds `pick_card`: parse check, 1-based range check, then the
`matched` and `revealed` checks on the 0-based cell. -/
def pick_card (R C : Nat) (b : List Card) (inp : Input) : PickResult :=
  match inp with
  | .malformed => .fail .malformedInput
  | .coords r c =>
    if r < 1 ∨ r > (R : Int) ∨ c < 1 ∨ c > (C : Int) then .fail .outOfRange
    else if (getCell C b (r - 1).toNat (c - 1).toNat).matched then .fail .alreadyMatched
    else if (getCell C b (r - 1).toNat (c - 1).toNat).revealed then .fail .alreadyRevealed
    else .ok (r - 1).toNat (c - 1).toNat

/-- The input-blocking points of `main`'s loop body: before the first
`pick_card`, before the second `pick_card` (first cell revealed at
`(r1, c1)`), and at the mismatch branch's "Press Enter to continue"
wait (both cells revealed). -/
inductive Phase where
  | first : Phase
  | second (r1 c1 : Nat) : Phase
  | ack (r1 c1 r2 c2 : Nat) : Phase
deriving DecidableEq, Repr

/-- The mutable state of `main`: the board and the `pairs_found` and
`moves` counters, plus the control-flow phase within the loop body. -/
structure MState where
  board : List Card
  pairs_found : Nat
  moves : Nat
  phase : Phase
deriving DecidableEq, Repr

/-- One small step of `main`'s loop body, consuming one blocking read.
- `first`: lines 63-66 — `pick_card`; on failure `continue`, on success
  reveal `(r1, c1)` and move to the second pick.
- `second`: lines 68-100 — `pick_card`; on failure hide the first cell
  and `continue`; the duplicate-coordinate check of lines 76-80; then
  reveal the second cell, `moves++`, and compare symbols: a match marks
  both cells matched and bumps `pairs_found`, a mismatch waits for the
  player's acknowledgment with both cells revealed.
- `ack`: lines 95-99 — the acknowledgment read (its content is ignored),
  then both cells are hidden. -/
def mstep (R C : Nat) (s : MState) (inp : Input) : MState × List Event :=
  match s.phase with
  | .first =>
    match pick_card R C s.board inp with
    | .fail e => (s, [.pickFail e])
    | .ok r1 c1 =>
      ({ s with board := setRev C s.board r1 c1 true, phase := .second r1 c1 }, [])
  | .second r1 c1 =>
    match pick_card R C s.board inp with
    | .fail e =>
      ({ s with board := setRev C s.board r1 c1 false, phase := .first }, [.pickFail e])
    | .ok r2 c2 =>
      if r1 = r2 ∧ c1 = c2 then
        ({ s with board := setRev C s.board r1 c1 false, phase := .first }, [.sameCardTwice])
      else
        let b2 := setRev C s.board r2 c2 true
        if (getCell C b2 r1 c1).symbol = (getCell C b2 r2 c2).symbol then
          ({ board := setMat C (setMat C b2 r1 c1) r2 c2,
             pairs_found := s.pairs_found + 1,
             moves := s.moves + 1,
             phase := .first }, [.matchFound])
        else
          ({ s with board := b2, moves := s.moves + 1, phase := .ack r1 c1 r2 c2 }, [.noMatch])
  | .ack r1 c1 r2 c2 =>
    ({ s with
        board := setRev C (setRev C s.board r1 c1 false) r2 c2 false,
        phase := .first }, [])

/-- The while-loop of `main`: the guard `pairs_found < total_pairs` is
tested whenever control is at the top of the loop (phase `first`);
otherwise one blocking read is consumed and one small step taken.
Fuel-bounded: the player may fail input indefinitely.  Returns the final
state and the unconsumed input. -/
def run (R C total : Nat) : Nat → MState → List Input → MState × List Input
  | 0, s, ins => (s, ins)
  | fuel + 1, s, ins =>
    if s.phase = .first ∧ total ≤ s.pairs_found then (s, ins)
    else
      match ins with
      | [] => (s, [])
      | i :: rest => run R C total fuel (mstep R C s i).1 rest

/-- The states `main` can be in at a blocking read: the freshly
initialized game (the `% 2` evenness of `BOARD_ROWS * BOARD_COLS` is
checked by `main` before `init_board` runs), closed under steps on
arbitrary input. -/
inductive Reachable (R C : Nat) : MState → Prop where
  | init (g : Nat → Nat) (b : List Card) :
      R * C % 2 = 0 → init_board R C g = some b →
      Reachable R C { board := b, pairs_found := 0, moves := 0, phase := .first }
  | step (s : MState) (inp : Input) :
      Reachable R C s → Reachable R C (mstep R C s inp).1

/-- Number of cells currently revealed but not matched (the "open,
unconfirmed" cells). -/
def countUR (b : List Card) : Nat :=
  b.countP (fun x => x.revealed && !x.matched)

/-- Number of matched cells. -/
def countM (b : List Card) : Nat :=
  b.countP (fun x => x.matched)

/-! ## Generic list helpers -/

theorem getD_set_eq {α : Type} (l : List α) (n : Nat) (x d : α) (h : n < l.length) :
    (l.set n x).getD n d = x := by
  simp [List.getD_eq_getElem?_getD, List.getElem?_set_self, h]

theorem getD_set_ne {α : Type} (l : List α) (m n : Nat) (x d : α) (h : m ≠ n) :
    (l.set m x).getD n d = l.getD n d := by
  simp [List.getD_eq_getElem?_getD, List.getElem?_set_ne h]

theorem getD_oob {α : Type} (l : List α) (n : Nat) (d : α) (h : l.length ≤ n) :
    l.getD n d = d := by
  simp [List.getD_eq_getElem?_getD, List.getElem?_eq_none h]

theorem set_getD_self {α : Type} :
    ∀ (l : List α) (n : Nat) (d : α), l.set n (l.getD n d) = l
  | [], _, _ => rfl
  | _ :: _, 0, _ => rfl
  | a :: t, n + 1, d => by
      simpa using set_getD_self t n d

theorem countP_set {α : Type} (p : α → Bool) :
    ∀ (l : List α) (n : Nat) (x d : α), n < l.length →
      (l.set n x).countP p + (if p (l.getD n d) then 1 else 0)
        = l.countP p + (if p x then 1 else 0)
  | [], n, x, d, h => by simp at h
  | a :: t, 0, x, d, _ => by
      simp only [List.set_cons_zero, List.countP_cons, List.getD_cons_zero]
      omega
  | a :: t, n + 1, x, d, h => by
      have ih := countP_set p t n x d (by simpa using h)
      simp only [List.set_cons_succ, List.countP_cons, List.getD_cons_succ]
      omega

theorem getD_cons_set_perm {α : Type} (d : α) :
    ∀ (t : List α) (j : Nat) (a : α), j < t.length →
      List.Perm (t.getD j d :: t.set j a) (a :: t)
  | [], j, a, h => by simp at h
  | b :: t', 0, a, _ => by
      simpa using List.Perm.swap a b t'
  | b :: t', j + 1, a, h => by
      have ih := getD_cons_set_perm d t' j a (by simpa using h)
      simp only [List.getD_cons_succ, List.set_cons_succ]
      exact (List.Perm.swap b (t'.getD j d) _).trans ((ih.cons b).trans (List.Perm.swap a b t'))

/-! ## Index arithmetic for the flat row-major board -/

theorem idx_lt {R C r c : Nat} (hr : r < R) (hc : c < C) : r * C + c < R * C := by
  have h1 : r * C + c < (r + 1) * C := by
    have : (r + 1) * C = r * C + C := by ring
    omega
  have h2 : (r + 1) * C ≤ R * C := Nat.mul_le_mul_right C hr
  omega

theorem idx_inj {C r1 c1 r2 c2 : Nat} (h1 : c1 < C) (h2 : c2 < C)
    (h : r1 * C + c1 = r2 * C + c2) : r1 = r2 ∧ c1 = c2 := by
  have hC : 0 < C := by omega
  have d1 : (r1 * C + c1) / C = r1 := by
    rw [Nat.add_comm, Nat.add_mul_div_right _ _ hC, Nat.div_eq_of_lt h1]
    omega
  have d2 : (r2 * C + c2) / C = r2 := by
    rw [Nat.add_comm, Nat.add_mul_div_right _ _ hC, Nat.div_eq_of_lt h2]
    omega
  have m1 : (r1 * C + c1) % C = c1 := by
    rw [Nat.add_comm, Nat.add_mul_mod_self_right, Nat.mod_eq_of_lt h1]
  have m2 : (r2 * C + c2) % C = c2 := by
    rw [Nat.add_comm, Nat.add_mul_mod_self_right, Nat.mod_eq_of_lt h2]
  constructor
  · rw [← d1, ← d2, h]
  · rw [← m1, ← m2, h]

/-! ## The shuffle permutes -/

theorem listSwap_perm (l : List Char) (i j : Nat) : List.Perm (listSwap l i j) l := by
  unfold listSwap
  cases hi : l.get? i with
  | none => exact List.Perm.refl l
  | some a =>
    cases hj : l.get? j with
    | none => exact List.Perm.refl l
    | some b =>
      have hi1 : i < l.length := by
        have := List.get?_eq_some.mp hi
        exact this.1
      have hj1 : j < l.length := by
        have := List.get?_eq_some.mp hj
        exact this.1
      have hia : l.getD i b = a := by
        simp [List.getD_eq_getElem?_getD, ← List.get?_eq_getElem?, hi]
      have hjb : l.getD j a = b := by
        simp [List.getD_eq_getElem?_getD, ← List.get?_eq_getElem?, hj]
      show List.Perm ((l.set i b).set j a) l
      by_cases hij : i = j
      · subst hij
        have hab : a = b := by rw [hi] at hj; injection hj
        subst hab
        rw [List.set_set, ← hia, set_getD_self]
      · have p1 : List.Perm ((l.set i b).getD j a :: (l.set i b).set j a) (a :: l.set i b) :=
          getD_cons_set_perm a (l.set i b) j a (by simpa using hj1)
        rw [getD_set_ne l i j b a hij, hjb] at p1
        have p2 : List.Perm (l.getD i b :: l.set i b) (b :: l) :=
          getD_cons_set_perm b l i b hi1
        rw [hia] at p2
        exact (p1.trans p2).cons_inv

theorem shuffleGo_perm (g : Nat → Nat) :
    ∀ (i : Nat) (l : List Char), List.Perm (shuffleGo g i l) l
  | 0, l => List.Perm.refl l
  | i + 1, l =>
      (shuffleGo_perm g i _).trans (listSwap_perm l (i + 1) (g (i + 1) % (i + 2)))

theorem shuffle_symbols_perm (g : Nat → Nat) (count : Nat) (l : List Char) :
    List.Perm (shuffle_symbols g count l) l :=
  shuffleGo_perm g (count - 1) l

/-! ## Symbol pool and pair-duplication facts -/

theorem pool_length : pool.length = 62 := by decide

theorem pool_nodup : pool.Nodup := by decide

theorem dupSymbols_count (x : Char) :
    ∀ l : List Char, (dupSymbols l).count x = 2 * l.count x
  | [] => rfl
  | s :: t => by
      have ih := dupSymbols_count x t
      simp only [dupSymbols, List.count_cons, ih]
      omega

theorem dupSymbols_length : ∀ l : List Char, (dupSymbols l).length = 2 * l.length
  | [] => rfl
  | s :: t => by
      have ih := dupSymbols_length t
      simp only [dupSymbols, List.length_cons, ih]
      omega

theorem dupSymbols_toFinset : ∀ l : List Char, (dupSymbols l).toFinset = l.toFinset
  | [] => rfl
  | s :: t => by
      simp [dupSymbols, dupSymbols_toFinset t]

/-! ## Cell access and update lemmas -/

theorem length_setRev (C : Nat) (b : List Card) (r c : Nat) (v : Bool) :
    (setRev C b r c v).length = b.length :=
  List.length_set ..

theorem length_setMat (C : Nat) (b : List Card) (r c : Nat) :
    (setMat C b r c).length = b.length :=
  List.length_set ..

theorem getCell_setRev_self (C : Nat) (b : List Card) (r c : Nat) (v : Bool)
    (h : r * C + c < b.length) :
    getCell C (setRev C b r c v) r c = { getCell C b r c with revealed := v } :=
  getD_set_eq b (r * C + c) _ defCard h

theorem getCell_setRev_ne (C : Nat) (b : List Card) (r c r' c' : Nat) (v : Bool)
    (h : r * C + c ≠ r' * C + c') :
    getCell C (setRev C b r c v) r' c' = getCell C b r' c' :=
  getD_set_ne b (r * C + c) (r' * C + c') _ defCard h

theorem getCell_setMat_self (C : Nat) (b : List Card) (r c : Nat)
    (h : r * C + c < b.length) :
    getCell C (setMat C b r c) r c = { getCell C b r c with matched := true } :=
  getD_set_eq b (r * C + c) _ defCard h

theorem getCell_setMat_ne (C : Nat) (b : List Card) (r c r' c' : Nat)
    (h : r * C + c ≠ r' * C + c') :
    getCell C (setMat C b r c) r' c' = getCell C b r' c' :=
  getD_set_ne b (r * C + c) (r' * C + c') _ defCard h

theorem countUR_reveal_eq (C : Nat) (b : List Card) (r c : Nat)
    (h : r * C + c < b.length)
    (hrev : (getCell C b r c).revealed = false) (hmat : (getCell C b r c).matched = false) :
    countUR (setRev C b r c true) = countUR b + 1 := by
  have key := countP_set (fun x => x.revealed && !x.matched) b (r * C + c)
    { getCell C b r c with revealed := true } defCard h
  simp only [getCell] at hrev hmat
  simp only [countUR, setRev, setCell, getCell, hrev, hmat] at key ⊢
  simpa using key

theorem countUR_hide_eq (C : Nat) (b : List Card) (r c : Nat)
    (h : r * C + c < b.length)
    (hrev : (getCell C b r c).revealed = true) (hmat : (getCell C b r c).matched = false) :
    countUR (setRev C b r c false) + 1 = countUR b := by
  have key := countP_set (fun x => x.revealed && !x.matched) b (r * C + c)
    { getCell C b r c with revealed := false } defCard h
  simp only [getCell] at hrev hmat
  simp only [countUR, setRev, setCell, getCell, hrev, hmat] at key ⊢
  simpa using key

theorem countUR_mark_eq (C : Nat) (b : List Card) (r c : Nat)
    (h : r * C + c < b.length)
    (hrev : (getCell C b r c).revealed = true) (hmat : (getCell C b r c).matched = false) :
    countUR (setMat C b r c) + 1 = countUR b := by
  have key := countP_set (fun x => x.revealed && !x.matched) b (r * C + c)
    { getCell C b r c with matched := true } defCard h
  simp only [getCell] at hrev hmat
  simp only [countUR, setMat, setCell, getCell, hrev, hmat] at key ⊢
  simpa using key

theorem countM_setRev_eq (C : Nat) (b : List Card) (r c : Nat) (v : Bool) :
    countM (setRev C b r c v) = countM b := by
  by_cases h : r * C + c < b.length
  · have key := countP_set (fun x => x.matched) b (r * C + c)
      { getCell C b r c with revealed := v } defCard h
    simp only [countM, setRev, setCell, getCell] at key ⊢
    simpa using key
  · simp only [countM, setRev, setCell]
    rw [List.set_eq_of_length_le (by omega)]

theorem countM_mark_eq (C : Nat) (b : List Card) (r c : Nat)
    (h : r * C + c < b.length) (hmat : (getCell C b r c).matched = false) :
    countM (setMat C b r c) = countM b + 1 := by
  have key := countP_set (fun x => x.matched) b (r * C + c)
    { getCell C b r c with matched := true } defCard h
  simp only [getCell] at hmat
  simp only [countM, setMat, setCell, getCell, hmat] at key ⊢
  simpa using key

/-- Matched cells stay shown: every matched cell is also revealed. -/
def flagsOK (b : List Card) : Prop :=
  ∀ n, n < b.length →
    (b.getD n defCard).matched = true → (b.getD n defCard).revealed = true

theorem flagsOK_set (b : List Card) (n : Nat) (x : Card)
    (hb : flagsOK b) (hx : x.matched = true → x.revealed = true) :
    flagsOK (b.set n x) := by
  intro k hk
  rw [List.length_set] at hk
  by_cases he : n = k
  · subst he
    rw [getD_set_eq b n x defCard hk]
    exact hx
  · rw [getD_set_ne b n k x defCard he]
    exact hb k hk

theorem flagsOK_setRev (C : Nat) (b : List Card) (r c : Nat) (v : Bool)
    (hb : flagsOK b) (hmat : (getCell C b r c).matched = false) :
    flagsOK (setRev C b r c v) := by
  apply flagsOK_set b (r * C + c) _ hb
  intro hm
  have hm' : (getCell C b r c).matched = true := hm
  rw [hmat] at hm'
  exact Bool.noConfusion hm'

theorem flagsOK_setMat (C : Nat) (b : List Card) (r c : Nat)
    (hb : flagsOK b) (hrev : (getCell C b r c).revealed = true) :
    flagsOK (setMat C b r c) :=
  flagsOK_set b (r * C + c) _ hb (fun _ => hrev)

/-! ## pick_card characterization -/

theorem pick_card_ok {R C : Nat} {b : List Card} {inp : Input} {r c : Nat}
    (h : pick_card R C b inp = .ok r c) :
    r < R ∧ c < C ∧ (getCell C b r c).matched = false ∧
      (getCell C b r c).revealed = false := by
  cases inp with
  | malformed => exact absurd h (by simp [pick_card])
  | coords ri ci =>
    simp only [pick_card] at h
    split at h
    · exact absurd h (by simp)
    · next hrange =>
      split at h
      · exact absurd h (by simp)
      · next hmat =>
        split at h
        · exact absurd h (by simp)
        · next hrev =>
          injection h with h1 h2
          subst h1
          subst h2
          push_neg at hrange
          refine ⟨by omega, by omega, ?_, ?_⟩
          · simpa using hmat
          · simpa using hrev

/-! ## The game-loop invariant -/

/-- Phase-indexed part of the loop invariant: which cells are currently
open (revealed but not matched). -/
def phaseInv (R C : Nat) (b : List Card) : Phase → Prop
  | .first => countUR b = 0
  | .second r1 c1 =>
      r1 < R ∧ c1 < C ∧
      (getCell C b r1 c1).revealed = true ∧ (getCell C b r1 c1).matched = false ∧
      countUR b = 1
  | .ack r1 c1 r2 c2 =>
      r1 < R ∧ c1 < C ∧ r2 < R ∧ c2 < C ∧ ¬(r1 = r2 ∧ c1 = c2) ∧
      (getCell C b r1 c1).revealed = true ∧ (getCell C b r1 c1).matched = false ∧
      (getCell C b r2 c2).revealed = true ∧ (getCell C b r2 c2).matched = false ∧
      countUR b = 2

/-- The inductive invariant of the game loop. -/
def Inv (R C : Nat) (s : MState) : Prop :=
  s.board.length = R * C ∧
  countM s.board = 2 * s.pairs_found ∧
  flagsOK s.board ∧
  phaseInv R C s.board s.phase

theorem getD_mem {α : Type} (l : List α) (n : Nat) (d : α) (h : n < l.length) :
    l.getD n d ∈ l := by
  rw [List.getD_eq_getElem l d h]
  exact List.getElem_mem ..

theorem perm_toFinset {α : Type} [DecidableEq α] {l l' : List α} (h : List.Perm l l') :
    l.toFinset = l'.toFinset :=
  Finset.ext fun a => by
    simp only [List.mem_toFinset]
    exact h.mem_iff

theorem inv_mstep (R C : Nat) (s : MState) (inp : Input) (h : Inv R C s) :
    Inv R C (mstep R C s inp).1 := by
  obtain ⟨b, p, m, ph⟩ := s
  obtain ⟨hlen, hM, hF, hP⟩ := h
  dsimp only at hlen hM hF hP
  cases ph with
  | first =>
    dsimp only [phaseInv] at hP
    cases hpk : pick_card R C b inp with
    | fail e =>
      simp only [mstep, hpk]
      exact ⟨hlen, hM, hF, hP⟩
    | ok r1 c1 =>
      obtain ⟨hr1, hc1, hm1, hv1⟩ := pick_card_ok hpk
      have hidx1 : r1 * C + c1 < b.length := by rw [hlen]; exact idx_lt hr1 hc1
      simp only [mstep, hpk]
      refine ⟨?_, ?_, ?_, ?_⟩
      · rw [length_setRev]; exact hlen
      · rw [countM_setRev_eq]; exact hM
      · exact flagsOK_setRev C b r1 c1 true hF hm1
      · dsimp only [phaseInv]
        refine ⟨hr1, hc1, ?_, ?_, ?_⟩
        · rw [getCell_setRev_self C b r1 c1 true hidx1]
        · rw [getCell_setRev_self C b r1 c1 true hidx1]
          exact hm1
        · rw [countUR_reveal_eq C b r1 c1 hidx1 hv1 hm1, hP]
  | second r1 c1 =>
    dsimp only [phaseInv] at hP
    obtain ⟨hr1, hc1, hv1, hm1, hcnt⟩ := hP
    have hidx1 : r1 * C + c1 < b.length := by rw [hlen]; exact idx_lt hr1 hc1
    cases hpk : pick_card R C b inp with
    | fail e =>
      simp only [mstep, hpk]
      refine ⟨?_, ?_, ?_, ?_⟩
      · rw [length_setRev]; exact hlen
      · rw [countM_setRev_eq]; exact hM
      · exact flagsOK_setRev C b r1 c1 false hF hm1
      · dsimp only [phaseInv]
        have := countUR_hide_eq C b r1 c1 hidx1 hv1 hm1
        omega
    | ok r2 c2 =>
      obtain ⟨hr2, hc2, hm2, hv2⟩ := pick_card_ok hpk
      have hidx2 : r2 * C + c2 < b.length := by rw [hlen]; exact idx_lt hr2 hc2
      have hcc : ¬(r1 = r2 ∧ c1 = c2) := by
        rintro ⟨rfl, rfl⟩
        rw [hv1] at hv2
        exact Bool.noConfusion hv2
      have hidxne : r1 * C + c1 ≠ r2 * C + c2 := fun he => hcc (idx_inj hc1 hc2 he)
      have e1 : getCell C (setRev C b r2 c2 true) r1 c1 = getCell C b r1 c1 :=
        getCell_setRev_ne C b r2 c2 r1 c1 true (Ne.symm hidxne)
      have e2 : getCell C (setRev C b r2 c2 true) r2 c2
          = { getCell C b r2 c2 with revealed := true } :=
        getCell_setRev_self C b r2 c2 true hidx2
      have hlen2 : (setRev C b r2 c2 true).length = b.length := length_setRev ..
      have hcnt2 : countUR (setRev C b r2 c2 true) = 2 := by
        rw [countUR_reveal_eq C b r2 c2 hidx2 hv2 hm2, hcnt]
      simp only [mstep, hpk, if_neg hcc]
      split
      · -- match branch: both cells marked matched, pairs_found bumped
        next hsym =>
        refine ⟨?_, ?_, ?_, ?_⟩
        · rw [length_setMat, length_setMat, hlen2]; exact hlen
        · have k1 : countM (setMat C (setRev C b r2 c2 true) r1 c1)
              = countM (setRev C b r2 c2 true) + 1 :=
            countM_mark_eq C _ r1 c1 (by rw [hlen2]; exact hidx1) (by rw [e1]; exact hm1)
          have e3 : getCell C (setMat C (setRev C b r2 c2 true) r1 c1) r2 c2
              = getCell C (setRev C b r2 c2 true) r2 c2 :=
            getCell_setMat_ne C _ r1 c1 r2 c2 hidxne
          have k2 : countM (setMat C (setMat C (setRev C b r2 c2 true) r1 c1) r2 c2)
              = countM (setMat C (setRev C b r2 c2 true) r1 c1) + 1 :=
            countM_mark_eq C _ r2 c2
              (by rw [length_setMat, hlen2]; exact hidx2)
              (by rw [e3, e2]; exact hm2)
          have k3 : countM (setRev C b r2 c2 true) = countM b := countM_setRev_eq ..
          dsimp only
          omega
        · apply flagsOK_setMat C _ r2 c2
          · apply flagsOK_setMat C _ r1 c1
            · exact flagsOK_setRev C b r2 c2 true hF hm2
            · rw [e1]; exact hv1
          · rw [getCell_setMat_ne C _ r1 c1 r2 c2 hidxne, e2]
        · dsimp only [phaseInv]
          have k1 : countUR (setMat C (setRev C b r2 c2 true) r1 c1) + 1
              = countUR (setRev C b r2 c2 true) :=
            countUR_mark_eq C _ r1 c1 (by rw [hlen2]; exact hidx1)
              (by rw [e1]; exact hv1) (by rw [e1]; exact hm1)
          have e3 : getCell C (setMat C (setRev C b r2 c2 true) r1 c1) r2 c2
              = getCell C (setRev C b r2 c2 true) r2 c2 :=
            getCell_setMat_ne C _ r1 c1 r2 c2 hidxne
          have k2 : countUR (setMat C (setMat C (setRev C b r2 c2 true) r1 c1) r2 c2) + 1
              = countUR (setMat C (setRev C b r2 c2 true) r1 c1) :=
            countUR_mark_eq C _ r2 c2
              (by rw [length_setMat, hlen2]; exact hidx2)
              (by rw [e3, e2]) (by rw [e3, e2]; exact hm2)
          omega
      · -- mismatch branch: enter the acknowledgment wait
        next hsym =>
        refine ⟨?_, ?_, ?_, ?_⟩
        · rw [hlen2]; exact hlen
        · rw [countM_setRev_eq]; exact hM
        · exact flagsOK_setRev C b r2 c2 true hF hm2
        · dsimp only [phaseInv]
          refine ⟨hr1, hc1, hr2, hc2, hcc, ?_, ?_, ?_, ?_, hcnt2⟩
          · rw [e1]; exact hv1
          · rw [e1]; exact hm1
          · rw [e2]
          · rw [e2]; exact hm2
  | ack r1 c1 r2 c2 =>
    dsimp only [phaseInv] at hP
    obtain ⟨hr1, hc1, hr2, hc2, hcc, hv1, hm1, hv2, hm2, hcnt⟩ := hP
    have hidx1 : r1 * C + c1 < b.length := by rw [hlen]; exact idx_lt hr1 hc1
    have hidx2 : r2 * C + c2 < b.length := by rw [hlen]; exact idx_lt hr2 hc2
    have hidxne : r1 * C + c1 ≠ r2 * C + c2 := fun he => hcc (idx_inj hc1 hc2 he)
    have e2 : getCell C (setRev C b r1 c1 false) r2 c2 = getCell C b r2 c2 :=
      getCell_setRev_ne C b r1 c1 r2 c2 false hidxne
    have hlenA : (setRev C b r1 c1 false).length = b.length := length_setRev ..
    simp only [mstep]
    refine ⟨?_, ?_, ?_, ?_⟩
    · rw [length_setRev, hlenA]; exact hlen
    · rw [countM_setRev_eq, countM_setRev_eq]; exact hM
    · exact flagsOK_setRev C _ r2 c2 false
        (flagsOK_setRev C b r1 c1 false hF hm1) (by rw [e2]; exact hm2)
    · dsimp only [phaseInv]
      have hA : countUR (setRev C b r1 c1 false) + 1 = countUR b :=
        countUR_hide_eq C b r1 c1 hidx1 hv1 hm1
      have hB : countUR (setRev C (setRev C b r1 c1 false) r2 c2 false) + 1
          = countUR (setRev C b r1 c1 false) :=
        countUR_hide_eq C (setRev C b r1 c1 false) r2 c2 (by rw [hlenA]; exact hidx2)
          (by rw [e2]; exact hv2) (by rw [e2]; exact hm2)
      omega

theorem reachable_inv {R C : Nat} {s : MState} (h : Reachable R C s) : Inv R C s := by
  induction h with
  | init g b heven hinit =>
    simp only [init_board] at hinit
    split at hinit
    · exact absurd hinit (by simp)
    · next hpc =>
      injection hinit with hb
      subst hb
      refine ⟨?_, ?_, ?_, ?_⟩
      · dsimp only
        rw [List.length_map, (shuffle_symbols_perm g (R * C) _).length_eq,
          dupSymbols_length, List.length_take]
        omega
      · dsimp only
        have hz : countM ((shuffle_symbols g (R * C)
            (dupSymbols (pool.take (R * C / 2)))).map
            (fun s => { symbol := s, revealed := false, matched := false })) = 0 := by
          apply List.countP_eq_zero.mpr
          intro x hx
          obtain ⟨sym, _, rfl⟩ := List.mem_map.mp hx
          simp
        rw [hz]
      · dsimp only
        intro n hn hm
        have hx := getD_mem _ n defCard hn
        obtain ⟨sym, _, he⟩ := List.mem_map.mp hx
        rw [← he] at hm
        exact Bool.noConfusion hm
      · dsimp only [phaseInv]
        apply List.countP_eq_zero.mpr
        intro x hx
        obtain ⟨sym, _, rfl⟩ := List.mem_map.mp hx
        simp
  | step s inp _ ih => exact inv_mstep R C s inp ih

/-! ## Concrete states for witnesses -/

/-- A fixed random source for concrete runs: every `rand()` call returns 0. -/
def g0 : Nat → Nat := fun _ => 0

/-- The freshly initialized game on the default 4×4 board
(`BOARD_ROWS = BOARD_COLS = 4`), under the random source `g0`. -/
def sInit44 : MState :=
  { board := (init_board 4 4 g0).getD [], pairs_found := 0, moves := 0, phase := .first }

/-- The freshly initialized game on a 1×2 board (one pair), under `g0`. -/
def sInit12 : MState :=
  { board := (init_board 1 2 g0).getD [], pairs_found := 0, moves := 0, phase := .first }

/-! ## Claims -/

/-- C1: for every reachable state of the game loop (after initialization
and after any sequence of picks, matches, and mismatches), the number of
cells with `revealed = true` and `matched = false` is always 0, 1, or 2
— never more. -/
theorem c1_open_unmatched_at_most_two {R C : Nat} {s : MState}
    (h : Reachable R C s) :
    countUR s.board = 0 ∨ countUR s.board = 1 ∨ countUR s.board = 2 := by
  have hP := (reachable_inv h).2.2.2
  cases hph : s.phase with
  | first =>
    rw [hph] at hP
    exact Or.inl hP
  | second r1 c1 =>
    rw [hph] at hP
    exact Or.inr (Or.inl hP.2.2.2.2)
  | ack r1 c1 r2 c2 =>
    rw [hph] at hP
    exact Or.inr (Or.inr hP.2.2.2.2.2.2.2.2.2)

theorem c1_witness :
    countUR sInit44.board = 0 ∨ countUR sInit44.board = 1 ∨ countUR sInit44.board = 2 :=
  c1_open_unmatched_at_most_two
    (@Reachable.init 4 4 g0 ((init_board 4 4 g0).getD []) (by decide) (by decide))

/-- C2 counterexample: on the concrete 4×4 game, picking (1,1) and then
(1,1) again does NOT produce the "same card twice" report: `pick_card`
rejects the duplicate coordinate first, as "already revealed" (the
dedicated duplicate branch of `main` is unreachable).  The state effects
the claim describes do hold: the first cell is hidden again, the move
counter is unchanged, and the game returns to the first pick. -/
theorem c2_counterexample :
    (mstep 4 4 (mstep 4 4 sInit44 (.coords 1 1)).1 (.coords 1 1)).2
        = [Event.pickFail PickError.alreadyRevealed] ∧
    (mstep 4 4 (mstep 4 4 sInit44 (.coords 1 1)).1 (.coords 1 1)).2
        ≠ [Event.sameCardTwice] ∧
    (mstep 4 4 (mstep 4 4 sInit44 (.coords 1 1)).1 (.coords 1 1)).1.moves = 0 ∧
    (mstep 4 4 (mstep 4 4 sInit44 (.coords 1 1)).1 (.coords 1 1)).1.phase = Phase.first ∧
    (getCell 4 (mstep 4 4 (mstep 4 4 sInit44 (.coords 1 1)).1 (.coords 1 1)).1.board
        0 0).revealed = false := by
  decide

/-- C2 (amended): when the second pick names the identical coordinate as
the first pick, `pick_card` rejects it as already revealed (the
"same card twice" report never fires): the program reports the
already-revealed message, resets the first cell's `revealed` flag to
false, leaves the move counter (and all other state) unchanged, and
returns to awaiting the first pick. -/
theorem c2_duplicate_pick_rejected_as_revealed {R C : Nat} {s : MState} {r1 c1 : Nat}
    (hph : s.phase = .second r1 c1)
    (hr : r1 < R) (hc : c1 < C)
    (hrev : (getCell C s.board r1 c1).revealed = true)
    (hmat : (getCell C s.board r1 c1).matched = false) :
    mstep R C s (.coords ((r1 : Int) + 1) ((c1 : Int) + 1))
      = ({ s with board := setRev C s.board r1 c1 false, phase := .first },
         [Event.pickFail PickError.alreadyRevealed]) := by
  have hpk : pick_card R C s.board (.coords ((r1 : Int) + 1) ((c1 : Int) + 1))
      = .fail .alreadyRevealed := by
    have h1 : ¬(((r1 : Int) + 1) < 1 ∨ ((r1 : Int) + 1) > (R : Int) ∨
        ((c1 : Int) + 1) < 1 ∨ ((c1 : Int) + 1) > (C : Int)) := by
      push_neg
      refine ⟨by omega, by omega, by omega, by omega⟩
    have h2 : (((r1 : Int) + 1) - 1).toNat = r1 := by omega
    have h3 : (((c1 : Int) + 1) - 1).toNat = c1 := by omega
    simp only [pick_card, if_neg h1, h2, h3, hmat, hrev]
    simp
  obtain ⟨b, p, m, ph⟩ := s
  dsimp only at hph hrev hmat hpk ⊢
  subst hph
  simp only [mstep, hpk]

theorem c2_witness :
    mstep 4 4 (mstep 4 4 sInit44 (.coords 1 1)).1 (.coords ((0 : Int) + 1) ((0 : Int) + 1))
      = ({ (mstep 4 4 sInit44 (.coords 1 1)).1 with
            board := setRev 4 (mstep 4 4 sInit44 (.coords 1 1)).1.board 0 0 false,
            phase := .first },
         [Event.pickFail PickError.alreadyRevealed]) :=
  c2_duplicate_pick_rejected_as_revealed (by decide) (by decide) (by decide)
    (by decide) (by decide)

/-- C3: for every valid configuration (`R`, `C` positive, `R*C` even,
`R*C/2` pairs not exceeding the 62-symbol alphabet), `init_board`
produces a board in which exactly `R*C/2` distinct symbols are used,
every symbol in use appears in exactly 2 cells, and every cell starts
with `revealed = false` and `matched = false`. -/
theorem c3_init_board_pairs {R C : Nat} (g : Nat → Nat)
    (hR : 0 < R) (hC : 0 < C) (heven : R * C % 2 = 0)
    (hpool : R * C / 2 ≤ pool.length) :
    ∃ b, init_board R C g = some b ∧
      (b.map (fun x => x.symbol)).toFinset.card = R * C / 2 ∧
      (∀ sym ∈ b.map (fun x => x.symbol), (b.map (fun x => x.symbol)).count sym = 2) ∧
      (∀ x ∈ b, x.revealed = false ∧ x.matched = false) := by
  have hsome : init_board R C g
      = some ((shuffle_symbols g (R * C) (dupSymbols (pool.take (R * C / 2)))).map
          (fun s => { symbol := s, revealed := false, matched := false })) := by
    unfold init_board
    rw [if_neg (by omega)]
  refine ⟨_, hsome, ?_, ?_, ?_⟩
  all_goals
    have hsym : ((shuffle_symbols g (R * C) (dupSymbols (pool.take (R * C / 2)))).map
          (fun s => ({ symbol := s, revealed := false, matched := false } : Card))).map
          (fun x => x.symbol)
        = shuffle_symbols g (R * C) (dupSymbols (pool.take (R * C / 2))) := by
      rw [List.map_map]
      exact List.map_id _
  · -- exactly R*C/2 distinct symbols
    rw [hsym]
    have hperm := shuffle_symbols_perm g (R * C) (dupSymbols (pool.take (R * C / 2)))
    have hfs : (shuffle_symbols g (R * C) (dupSymbols (pool.take (R * C / 2)))).toFinset
        = (pool.take (R * C / 2)).toFinset := by
      rw [perm_toFinset hperm]
      exact dupSymbols_toFinset _
    rw [hfs, List.toFinset_card_of_nodup ((List.take_sublist _ _).nodup pool_nodup),
      List.length_take]
    omega
  · -- every symbol in use appears in exactly 2 cells
    intro sym hmem
    rw [hsym] at hmem ⊢
    have hperm := shuffle_symbols_perm g (R * C) (dupSymbols (pool.take (R * C / 2)))
    rw [hperm.count_eq, dupSymbols_count]
    have hmem2 : sym ∈ dupSymbols (pool.take (R * C / 2)) := hperm.mem_iff.mp hmem
    have hpos : 0 < (pool.take (R * C / 2)).count sym := by
      have := List.count_pos_iff.mpr hmem2
      rw [dupSymbols_count] at this
      omega
    have hone : (pool.take (R * C / 2)).count sym = 1 :=
      List.count_eq_one_of_mem ((List.take_sublist _ _).nodup pool_nodup)
        (List.count_pos_iff.mp hpos)
    rw [hone]
  · -- all flags start false
    intro x hx
    obtain ⟨sym, _, rfl⟩ := List.mem_map.mp hx
    exact ⟨rfl, rfl⟩

theorem c3_witness :
    ∃ b, init_board 4 4 g0 = some b ∧
      (b.map (fun x => x.symbol)).toFinset.card = 4 * 4 / 2 ∧
      (∀ sym ∈ b.map (fun x => x.symbol), (b.map (fun x => x.symbol)).count sym = 2) ∧
      (∀ x ∈ b, x.revealed = false ∧ x.matched = false) :=
  c3_init_board_pairs g0 (by decide) (by decide) (by decide) (by decide)

/-- C4: for every input sequence and every state of the random source,
the shuffle permutes the sequence in place (the multiset of elements is
preserved), and each swap of the Fisher–Yates loop (`i` from `N-1` down
to `1`) exchanges element `i` with an element at an index in `[0, i]`
(namely `g i % (i + 1)`). -/
theorem c4_shuffle_permutes (g : Nat → Nat) (count : Nat) (l : List Char) :
    List.Perm (shuffle_symbols g count l) l ∧
    (∀ (i : Nat) (l' : List Char), 0 < i →
      shuffleGo g i l' = shuffleGo g (i - 1) (listSwap l' i (g i % (i + 1))) ∧
      g i % (i + 1) ≤ i) := by
  refine ⟨shuffle_symbols_perm g count l, ?_⟩
  intro i l' hi
  cases i with
  | zero => omega
  | succ n =>
    refine ⟨rfl, ?_⟩
    have := Nat.mod_lt (g (n + 1)) (show 0 < (n + 1) + 1 by omega)
    omega

theorem c4_witness :
    List.Perm (shuffle_symbols g0 4 ['A', 'B', 'C', 'D']) ['A', 'B', 'C', 'D'] ∧
    (shuffleGo g0 3 ['A', 'B', 'C', 'D']
        = shuffleGo g0 2 (listSwap ['A', 'B', 'C', 'D'] 3 (g0 3 % 4)) ∧
      g0 3 % 4 ≤ 3) :=
  ⟨(c4_shuffle_permutes g0 4 ['A', 'B', 'C', 'D']).1,
   (c4_shuffle_permutes g0 4 ['A', 'B', 'C', 'D']).2 3 ['A', 'B', 'C', 'D'] (by decide)⟩

/-- C5: the move counter increments by exactly 1 per completed two-card
attempt (second pick valid and distinct from the first), and does not
increment on any rejected pick (malformed, out-of-range, already
matched, already revealed) nor on a duplicate-coordinate second pick —
whether or not the attempt is a match. -/
theorem c5_move_counter (R C : Nat) (s : MState) (inp : Input) :
    (mstep R C s inp).1.moves =
      (match s.phase with
       | .second r1 c1 =>
         (match pick_card R C s.board inp with
          | .ok r2 c2 => if r1 = r2 ∧ c1 = c2 then s.moves else s.moves + 1
          | .fail _ => s.moves)
       | _ => s.moves) := by
  obtain ⟨b, p, m, ph⟩ := s
  cases ph with
  | first =>
    cases hpk : pick_card R C b inp with
    | fail e => simp [mstep, hpk]
    | ok r1 c1 => simp [mstep, hpk]
  | second r1 c1 =>
    cases hpk : pick_card R C b inp with
    | fail e => simp [mstep, hpk]
    | ok r2 c2 =>
      by_cases hd : r1 = r2 ∧ c1 = c2
      · simp [mstep, hpk, if_pos hd]
      · simp only [mstep, hpk, if_neg hd]
        split <;> rfl
  | ack r1 c1 r2 c2 => simp [mstep]

/-- C6: when the two validly picked distinct cells hold equal symbols,
both cells become matched and `pairs_found` increments by 1; the loop
tests its guard only at the top (phase `first`) and exits exactly when
`pairs_found` reaches `total_pairs = R*C/2` (reachable states never
exceed it), consuming no further input once won — the final `moves`
value reported is the one in the returned state. -/
theorem c6_match_and_win_termination :
    (∀ (R C : Nat) (s : MState) (inp : Input) (r1 c1 r2 c2 : Nat),
      s.phase = .second r1 c1 →
      pick_card R C s.board inp = .ok r2 c2 →
      (getCell C (setRev C s.board r2 c2 true) r1 c1).symbol
          = (getCell C (setRev C s.board r2 c2 true) r2 c2).symbol →
      ¬(r1 = r2 ∧ c1 = c2) →
      (mstep R C s inp).1.board
          = setMat C (setMat C (setRev C s.board r2 c2 true) r1 c1) r2 c2 ∧
      (mstep R C s inp).1.pairs_found = s.pairs_found + 1 ∧
      (mstep R C s inp).1.phase = .first ∧
      (s.board.length = R * C → r1 < R → c1 < C →
        (getCell C (mstep R C s inp).1.board r1 c1).matched = true ∧
        (getCell C (mstep R C s inp).1.board r2 c2).matched = true)) ∧
    (∀ (R C : Nat) (s : MState), Reachable R C s → s.pairs_found ≤ R * C / 2) ∧
    (∀ (R C fuel : Nat) (s : MState) (ins : List Input),
      s.phase = .first → s.pairs_found = R * C / 2 →
      run R C (R * C / 2) (fuel + 1) s ins = (s, ins)) ∧
    (∀ (R C fuel : Nat) (s : MState) (i : Input) (ins : List Input),
      s.phase = .first → s.pairs_found < R * C / 2 →
      run R C (R * C / 2) (fuel + 1) s (i :: ins)
        = run R C (R * C / 2) fuel (mstep R C s i).1 ins) := by
  refine ⟨?_, ?_, ?_, ?_⟩
  · intro R C s inp r1 c1 r2 c2 hph hpk hsym hcc
    obtain ⟨b, p, m, ph⟩ := s
    dsimp only at hph hpk hsym ⊢
    subst hph
    obtain ⟨hr2, hc2, hm2, hv2⟩ := pick_card_ok hpk
    simp only [mstep, hpk, if_neg hcc, if_pos hsym]
    refine ⟨by trivial, by trivial, by trivial, ?_⟩
    intro hlen hr1 hc1
    have hidx1 : r1 * C + c1 < b.length := by rw [hlen]; exact idx_lt hr1 hc1
    have hidx2 : r2 * C + c2 < b.length := by rw [hlen]; exact idx_lt hr2 hc2
    have hidxne : r1 * C + c1 ≠ r2 * C + c2 := fun he => hcc (idx_inj hc1 hc2 he)
    constructor
    · rw [getCell_setMat_ne C _ r2 c2 r1 c1 (Ne.symm hidxne),
        getCell_setMat_self C _ r1 c1 (by rw [length_setRev]; exact hidx1)]
    · rw [getCell_setMat_self C _ r2 c2
        (by rw [length_setMat, length_setRev]; exact hidx2)]
  · intro R C s h
    obtain ⟨hlen, hM, -, -⟩ := reachable_inv h
    have hle : countM s.board ≤ s.board.length := List.countP_le_length ..
    omega
  · intro R C fuel s ins hph hp
    simp only [run]
    rw [if_pos ⟨hph, by omega⟩]
  · intro R C fuel s i ins hph hp
    simp only [run]
    rw [if_neg (by rintro ⟨-, h2⟩; omega)]

theorem c6_witness :
    ((mstep 1 2 (mstep 1 2 sInit12 (.coords 1 1)).1 (.coords 1 2)).1.pairs_found
        = (mstep 1 2 sInit12 (.coords 1 1)).1.pairs_found + 1 ∧
      (mstep 1 2 (mstep 1 2 sInit12 (.coords 1 1)).1 (.coords 1 2)).1.phase
        = Phase.first) ∧
    sInit44.pairs_found ≤ 4 * 4 / 2 ∧
    run 1 2 (1 * 2 / 2) (0 + 1)
        (mstep 1 2 (mstep 1 2 sInit12 (.coords 1 1)).1 (.coords 1 2)).1 []
      = ((mstep 1 2 (mstep 1 2 sInit12 (.coords 1 1)).1 (.coords 1 2)).1, []) ∧
    run 1 2 (1 * 2 / 2) (0 + 1) sInit12 [Input.coords 1 1]
      = run 1 2 (1 * 2 / 2) 0 (mstep 1 2 sInit12 (.coords 1 1)).1 [] := by
  refine ⟨?_, ?_, ?_, ?_⟩
  · have h := c6_match_and_win_termination.1 1 2 (mstep 1 2 sInit12 (.coords 1 1)).1
      (.coords 1 2) 0 0 0 1 (by decide) (by decide) (by decide) (by decide)
    exact ⟨h.2.1, h.2.2.1⟩
  · exact c6_match_and_win_termination.2.1 4 4 sInit44
      (@Reachable.init 4 4 g0 ((init_board 4 4 g0).getD []) (by decide) (by decide))
  · exact c6_match_and_win_termination.2.2.1 1 2 0
      (mstep 1 2 (mstep 1 2 sInit12 (.coords 1 1)).1 (.coords 1 2)).1 [] (by decide) (by decide)
  · exact c6_match_and_win_termination.2.2.2 1 2 0 sInit12 (.coords 1 1) []
      (by decide) (by decide)

/-- C7: when the two validly picked distinct cells hold differing
symbols, then after the player's acknowledgment both cells' `revealed`
flags are reset to false, both cells' `matched` flags remain false, and
no other cell of the board changes. -/
theorem c7_mismatch_hides_both_and_frames {R C : Nat} {s : MState} {inp inp2 : Input}
    {r1 c1 r2 c2 : Nat}
    (hph : s.phase = .second r1 c1)
    (hlen : s.board.length = R * C)
    (hr1 : r1 < R) (hc1 : c1 < C)
    (hv1 : (getCell C s.board r1 c1).revealed = true)
    (hm1 : (getCell C s.board r1 c1).matched = false)
    (hpk : pick_card R C s.board inp = .ok r2 c2)
    (hsym : (getCell C s.board r1 c1).symbol ≠ (getCell C s.board r2 c2).symbol) :
    (mstep R C s inp).1.phase = .ack r1 c1 r2 c2 ∧
    (mstep R C (mstep R C s inp).1 inp2).1.phase = .first ∧
    getCell C (mstep R C (mstep R C s inp).1 inp2).1.board r1 c1
        = { getCell C s.board r1 c1 with revealed := false } ∧
    getCell C (mstep R C (mstep R C s inp).1 inp2).1.board r2 c2
        = { getCell C s.board r2 c2 with revealed := false } ∧
    (getCell C (mstep R C (mstep R C s inp).1 inp2).1.board r1 c1).matched = false ∧
    (getCell C (mstep R C (mstep R C s inp).1 inp2).1.board r2 c2).matched = false ∧
    (∀ r c, r < R → c < C → ¬(r = r1 ∧ c = c1) → ¬(r = r2 ∧ c = c2) →
      getCell C (mstep R C (mstep R C s inp).1 inp2).1.board r c
        = getCell C s.board r c) := by
  obtain ⟨b, p, m, ph⟩ := s
  dsimp only at hph hlen hv1 hm1 hpk hsym ⊢
  subst hph
  obtain ⟨hr2, hc2, hm2, hv2⟩ := pick_card_ok hpk
  have hidx1 : r1 * C + c1 < b.length := by rw [hlen]; exact idx_lt hr1 hc1
  have hidx2 : r2 * C + c2 < b.length := by rw [hlen]; exact idx_lt hr2 hc2
  have hcc : ¬(r1 = r2 ∧ c1 = c2) := by
    rintro ⟨rfl, rfl⟩
    rw [hv1] at hv2
    exact Bool.noConfusion hv2
  have hidxne : r1 * C + c1 ≠ r2 * C + c2 := fun he => hcc (idx_inj hc1 hc2 he)
  have e1 : getCell C (setRev C b r2 c2 true) r1 c1 = getCell C b r1 c1 :=
    getCell_setRev_ne C b r2 c2 r1 c1 true (Ne.symm hidxne)
  have e2 : getCell C (setRev C b r2 c2 true) r2 c2
      = { getCell C b r2 c2 with revealed := true } :=
    getCell_setRev_self C b r2 c2 true hidx2
  have hsym2 : ¬((getCell C (setRev C b r2 c2 true) r1 c1).symbol
      = (getCell C (setRev C b r2 c2 true) r2 c2).symbol) := by
    rw [e1, e2]
    exact hsym
  simp only [mstep, hpk, if_neg hcc, if_neg hsym2]
  refine ⟨by trivial, by trivial, ?_, ?_, ?_, ?_, ?_⟩
  · rw [getCell_setRev_ne C _ r2 c2 r1 c1 false (Ne.symm hidxne),
      getCell_setRev_self C _ r1 c1 false (by rw [length_setRev]; exact hidx1), e1]
  · rw [getCell_setRev_self C _ r2 c2 false
        (by rw [length_setRev, length_setRev]; exact hidx2),
      getCell_setRev_ne C _ r1 c1 r2 c2 false hidxne, e2]
  · rw [getCell_setRev_ne C _ r2 c2 r1 c1 false (Ne.symm hidxne),
      getCell_setRev_self C _ r1 c1 false (by rw [length_setRev]; exact hidx1), e1]
    exact hm1
  · rw [getCell_setRev_self C _ r2 c2 false
        (by rw [length_setRev, length_setRev]; exact hidx2),
      getCell_setRev_ne C _ r1 c1 r2 c2 false hidxne, e2]
    exact hm2
  · intro r c hr hc hne1 hne2
    have hi1 : r * C + c ≠ r1 * C + c1 := fun he => hne1 (idx_inj hc hc1 he)
    have hi2 : r * C + c ≠ r2 * C + c2 := fun he => hne2 (idx_inj hc hc2 he)
    rw [getCell_setRev_ne C _ r2 c2 r c false (Ne.symm hi2),
      getCell_setRev_ne C _ r1 c1 r c false (Ne.symm hi1),
      getCell_setRev_ne C _ r2 c2 r c true (Ne.symm hi2)]

/-- The freshly initialized game on a 2×2 board (two pairs), under `g0`;
its board is `[A, B, B, A]` row-major, so picking (1,1) then (1,2) is a
mismatch. -/
def sInit22 : MState :=
  { board := (init_board 2 2 g0).getD [], pairs_found := 0, moves := 0, phase := .first }

theorem c7_witness :
    getCell 2 (mstep 2 2 (mstep 2 2 (mstep 2 2 sInit22 (.coords 1 1)).1
          (.coords 1 2)).1 .malformed).1.board 0 0
      = { getCell 2 (mstep 2 2 sInit22 (.coords 1 1)).1.board 0 0 with revealed := false } ∧
    getCell 2 (mstep 2 2 (mstep 2 2 (mstep 2 2 sInit22 (.coords 1 1)).1
          (.coords 1 2)).1 .malformed).1.board 0 1
      = { getCell 2 (mstep 2 2 sInit22 (.coords 1 1)).1.board 0 1 with revealed := false } ∧
    getCell 2 (mstep 2 2 (mstep 2 2 (mstep 2 2 sInit22 (.coords 1 1)).1
          (.coords 1 2)).1 .malformed).1.board 1 0
      = getCell 2 (mstep 2 2 sInit22 (.coords 1 1)).1.board 1 0 := by
  have h := @c7_mismatch_hides_both_and_frames 2 2 (mstep 2 2 sInit22 (.coords 1 1)).1
    (.coords 1 2) .malformed 0 0 0 1 (by decide) (by decide) (by decide) (by decide)
    (by decide) (by decide) (by decide) (by decide)
  exact ⟨h.2.2.1, h.2.2.2.1,
    h.2.2.2.2.2.2 1 0 (by decide) (by decide) (by decide) (by decide)⟩

/-- C8: the required pair count `R*C/2` exceeds the 62-symbol alphabet
exactly when `init_board` fails (the C code reports the error and calls
`exit(1)` — non-zero status — before any board is produced; the pair
count is never silently truncated). -/
theorem c8_configuration_error (R C : Nat) (g : Nat → Nat) :
    init_board R C g = none ↔ R * C / 2 > pool.length := by
  unfold init_board
  split
  · next h => simp [h]
  · next h => simp [h]

/-! Helper lemmas for C9: the symbol projection of the board is
untouched by every board update the turn resolver performs. -/

theorem map_symbol_set (b : List Card) (n : Nat) (x : Card)
    (hx : x.symbol = (b.getD n defCard).symbol) :
    (b.set n x).map (fun c => c.symbol) = b.map (fun c => c.symbol) := by
  by_cases h : n < b.length
  · simp only [List.map_set]
    rw [hx]
    have h2 : (b.getD n defCard).symbol = (b.map (fun c => c.symbol)).getD n 'A' := by
      rw [List.getD_eq_getElem b defCard h,
        List.getD_eq_getElem (b.map (fun c => c.symbol)) 'A' (by simpa using h),
        List.getElem_map]
    rw [h2, set_getD_self]
  · rw [List.set_eq_of_length_le (by omega)]

theorem map_symbol_setRev (C : Nat) (b : List Card) (r c : Nat) (v : Bool) :
    (setRev C b r c v).map (fun x => x.symbol) = b.map (fun x => x.symbol) :=
  map_symbol_set b _ _ rfl

theorem map_symbol_setMat (C : Nat) (b : List Card) (r c : Nat) :
    (setMat C b r c).map (fun x => x.symbol) = b.map (fun x => x.symbol) :=
  map_symbol_set b _ _ rfl

theorem mstep_map_symbol (R C : Nat) (s : MState) (inp : Input) :
    (mstep R C s inp).1.board.map (fun x => x.symbol)
      = s.board.map (fun x => x.symbol) := by
  obtain ⟨b, p, m, ph⟩ := s
  dsimp only
  cases ph with
  | first =>
    cases hpk : pick_card R C b inp with
    | fail e => simp only [mstep, hpk]
    | ok r1 c1 =>
      simp only [mstep, hpk]
      exact map_symbol_setRev ..
  | second r1 c1 =>
    cases hpk : pick_card R C b inp with
    | fail e =>
      simp only [mstep, hpk]
      exact map_symbol_setRev ..
    | ok r2 c2 =>
      by_cases hd : r1 = r2 ∧ c1 = c2
      · simp only [mstep, hpk, if_pos hd]
        exact map_symbol_setRev ..
      · simp only [mstep, hpk, if_neg hd]
        split
        · rw [map_symbol_setMat, map_symbol_setMat, map_symbol_setRev]
        · exact map_symbol_setRev ..
  | ack r1 c1 r2 c2 =>
    simp only [mstep]
    rw [map_symbol_setRev, map_symbol_setRev]

theorem run_map_symbol (R C total fuel : Nat) (s : MState) (ins : List Input) :
    (run R C total fuel s ins).1.board.map (fun x => x.symbol)
      = s.board.map (fun x => x.symbol) := by
  induction fuel generalizing s ins with
  | zero => rfl
  | succ n ih =>
    simp only [run]
    split
    · rfl
    · cases ins with
      | nil => rfl
      | cons i rest => exact (ih _ _).trans (mstep_map_symbol R C s i)

/-- C9: after board creation, the symbol field of every cell is never
modified — each turn-resolver step, and therefore any run of the game
loop, preserves the row-major list of the board's symbols (only the
`revealed` and `matched` flags change). -/
theorem c9_symbols_never_change :
    (∀ (R C : Nat) (s : MState) (inp : Input),
      (mstep R C s inp).1.board.map (fun x => x.symbol)
        = s.board.map (fun x => x.symbol)) ∧
    (∀ (R C total fuel : Nat) (s : MState) (ins : List Input),
      (run R C total fuel s ins).1.board.map (fun x => x.symbol)
        = s.board.map (fun x => x.symbol)) :=
  ⟨mstep_map_symbol, run_map_symbol⟩

/-- C10: in every reachable state, every cell with `matched = true` also
has `revealed = true` (cell `n` of the flat row-major board is
`board[n / C][n % C]`): matching leaves both cells revealed, and the
mismatch branch only hides the two currently picked unmatched cells. -/
theorem c10_matched_implies_revealed {R C : Nat} {s : MState} (h : Reachable R C s) :
    ∀ n, n < s.board.length →
      (s.board.getD n defCard).matched = true →
      (s.board.getD n defCard).revealed = true :=
  (reachable_inv h).2.2.1

theorem c10_witness :
    ((mstep 1 2 (mstep 1 2 sInit12 (.coords 1 1)).1 (.coords 1 2)).1.board.getD 0
        defCard).revealed = true :=
  c10_matched_implies_revealed
    (Reachable.step _ (.coords 1 2) (Reachable.step _ (.coords 1 1)
      (@Reachable.init 1 2 g0 ((init_board 1 2 g0).getD []) (by decide) (by decide))))
    0 (by decide) (by decide)

end MemoryMatch
